import Mathlib

/-!
Formal model of synthizer's SPSC audio ring
(include/synthizer/audio_ring.hpp), the GlobalEffect tick
(include/synthizer/effects/global_effect.hpp), and the biquad filter-design
C API (src/filter_properties.cpp).

The ring is shallowly embedded: C++ pointers into the backing array are
modelled as offsets (an Option Nat, with none standing for a null pointer),
the backing array as a total function Nat → Int (in C++ the element type is
a template parameter; every property proved here is element-agnostic, so we
instantiate it), and the atomic samples_in_buffer counter as a Nat field.
The blocking wait loop of beginWrite is modelled as failure (none): in a
sequential trace of completed transactions, a write that would block never
completes.  endRead's call to read_end_event.signal() is modelled by a
counter of signals.
-/

/-- The result shape of beginWrite and beginRead: two (length, pointer)
regions, mirroring the DirectSound-style API of AudioRingBase.  A pointer is
an offset into the ring's backing array; none models a null pointer. -/
structure RingRegions where
  len1 : Nat
  ptr1 : Option Nat
  len2 : Nat
  ptr2 : Option Nat
deriving DecidableEq

/-- State of an AudioRingBase: the backing array exposed by the data
provider (of length size), the two wrap pointers, the samples_in_buffer
atomic counter, the two pending transaction sizes, and a count of how many
times read_end_event.signal() has been called. -/
structure RingState where
  size : Nat
  data : Nat → Int
  write_pointer : Nat
  read_pointer : Nat
  samples_in_buffer : Nat
  pending_write_size : Nat
  pending_read_size : Nat
  read_end_signals : Nat

/-- The std::memory_order annotations appearing in audio_ring.hpp, recorded
as data so that the ordering used at each atomic access of the source is
part of the model. -/
inductive MemoryOrder where
  | relaxed
  | acquire
  | release
  | acq_rel
  | seq_cst
deriving DecidableEq

/-- beginWrite loads samples_in_buffer with std::memory_order_relaxed
(audio_ring.hpp line 52). -/
def beginWrite_counter_load_order : MemoryOrder := MemoryOrder.relaxed

/-- endWrite publishes with fetch_add(amount, std::memory_order_release)
(audio_ring.hpp line 77). -/
def endWrite_counter_rmw_order : MemoryOrder := MemoryOrder.release

/-- beginRead loads samples_in_buffer with std::memory_order_acquire
(audio_ring.hpp line 96). -/
def beginRead_counter_load_order : MemoryOrder := MemoryOrder.acquire

/-- endRead consumes with fetch_sub(amount, std::memory_order_release)
(audio_ring.hpp line 117). -/
def endRead_counter_rmw_order : MemoryOrder := MemoryOrder.release

/-- AudioRingBase::beginWrite.  The do/while loop waits on read_end_event
until available ≥ requested; in a sequential trace that wait can never be
satisfied by anyone else, so a blocking call is modelled as none. -/
def beginWrite (s : RingState) (requested : Nat) (maxAvailable : Bool) :
    Option (RingRegions × RingState) :=
  let available := s.size - s.samples_in_buffer
  if available < requested then
    none
  else
    let allocating := if maxAvailable then available else requested
    let s1 : RingState := { s with pending_write_size := allocating }
    let size1 := min (s.size - s.write_pointer) allocating
    if size1 = allocating then
      some (⟨size1, some s.write_pointer, 0, none⟩, s1)
    else
      some (⟨size1, some s.write_pointer, allocating - size1, some 0⟩, s1)

/-- AudioRingBase::endWrite(amount). -/
def endWrite (s : RingState) (amount : Nat) : RingState :=
  { s with
    write_pointer := (s.write_pointer + amount) % s.size,
    pending_write_size := s.pending_write_size - amount,
    samples_in_buffer := s.samples_in_buffer + amount }

/-- AudioRingBase::beginRead.  Never blocks: on underflow it returns zero
lengths and null pointers and touches no state. -/
def beginRead (s : RingState) (requested : Nat) (maxAvailable : Bool) :
    RingRegions × RingState :=
  let available := s.samples_in_buffer
  if available = 0 ∨ (available < requested ∧ maxAvailable = false) then
    (⟨0, none, 0, none⟩, s)
  else
    let allocating := if maxAvailable then available else requested
    let s1 : RingState := { s with pending_read_size := allocating }
    let size1 := min allocating (s.size - s.read_pointer)
    if size1 = allocating then
      (⟨size1, some s.read_pointer, 0, none⟩, s1)
    else
      (⟨size1, some s.read_pointer, allocating - size1, some 0⟩, s1)

/-- AudioRingBase::endRead(amount): advance the read pointer, shrink the
pending read, fetch_sub the counter, signal read_end_event. -/
def endRead (s : RingState) (amount : Nat) : RingState :=
  { s with
    read_pointer := (s.read_pointer + amount) % s.size,
    pending_read_size := s.pending_read_size - amount,
    samples_in_buffer := s.samples_in_buffer - amount,
    read_end_signals := s.read_end_signals + 1 }

/-- A concrete ring state used to witness the theorems below: a ring of
size 4 holding one sample, write pointer 2, read pointer 0. -/
def ringW : RingState :=
  { size := 4, data := fun _ => 0, write_pointer := 2, read_pointer := 0,
    samples_in_buffer := 1, pending_write_size := 0, pending_read_size := 0,
    read_end_signals := 0 }

/-- Claim C2: if fewer than requested samples are buffered and maxAvailable
is false (with 0 < requested ≤ ring size, per the asserts), beginRead
returns zero lengths with null pointers and leaves the ring state — read
pointer, samples_in_buffer counter, pending read size — unchanged. -/
theorem beginRead_underflow_noop (s : RingState) (r : Nat) (hr0 : 0 < r)
    (hrs : r ≤ s.size) (hlt : s.samples_in_buffer < r) :
    beginRead s r false = (⟨0, none, 0, none⟩, s) := by
  simp only [beginRead]
  rw [if_pos (Or.inr ⟨hlt, by trivial⟩)]

theorem beginRead_underflow_noop_witness :
    0 < 2 ∧ 2 ≤ ringW.size ∧ ringW.samples_in_buffer < 2 ∧
      beginRead ringW 2 false = (⟨0, none, 0, none⟩, ringW) :=
  ⟨by decide, by decide, by decide,
    beginRead_underflow_noop ringW 2 (by decide) (by decide) (by decide)⟩

/-- A concrete empty ring state (size 4, nothing buffered). -/
def ringEmpty : RingState :=
  { size := 4, data := fun _ => 0, write_pointer := 2, read_pointer := 2,
    samples_in_buffer := 0, pending_write_size := 0, pending_read_size := 0,
    read_end_signals := 0 }

/-- Claim C9: beginRead(r, maxAvailable = true) on a ring whose
samples_in_buffer counter is 0 returns zero lengths with null pointers (not
a valid pointer of zero length), leaving the state untouched. -/
theorem beginRead_empty_max_available (s : RingState) (r : Nat)
    (h0 : s.samples_in_buffer = 0) :
    beginRead s r true = (⟨0, none, 0, none⟩, s) := by
  simp only [beginRead]
  rw [if_pos (Or.inl h0)]

theorem beginRead_empty_max_available_witness :
    ringEmpty.samples_in_buffer = 0 ∧
      beginRead ringEmpty 3 true = (⟨0, none, 0, none⟩, ringEmpty) :=
  ⟨by decide, beginRead_empty_max_available ringEmpty 3 (by decide)⟩

/-- Claim C3, counterexample: the claim asserts (relaying the spec's
"end_read(n) acquires on the counter") that endRead's decrement of
samples_in_buffer uses acquire ordering; in the source the decrement is
fetch_sub(amount, std::memory_order_release) (audio_ring.hpp line 117). -/
theorem endRead_order_not_acquire :
    endRead_counter_rmw_order ≠ MemoryOrder.acquire := by
  decide

/-- Claim C3, amended: for a ring whose pending read p satisfies p ≤
samples_in_buffer (an invariant of the SPSC protocol, since the pending
read was sized from the counter) and any n ≤ p, endRead(n) advances the
read pointer by n modulo the ring size, decreases samples_in_buffer by
exactly n, decreases the pending read size by n, and signals the read-end
event; the decrement uses release (not acquire) ordering on the counter. -/
theorem endRead_spec (s : RingState) (n : Nat)
    (hp : n ≤ s.pending_read_size)
    (hs : s.pending_read_size ≤ s.samples_in_buffer) :
    (endRead s n).read_pointer = (s.read_pointer + n) % s.size ∧
    (endRead s n).samples_in_buffer + n = s.samples_in_buffer ∧
    (endRead s n).pending_read_size + n = s.pending_read_size ∧
    (endRead s n).read_end_signals = s.read_end_signals + 1 ∧
    endRead_counter_rmw_order = MemoryOrder.release := by
  refine ⟨rfl, ?_, ?_, rfl, rfl⟩
  · show s.samples_in_buffer - n + n = s.samples_in_buffer
    omega
  · show s.pending_read_size - n + n = s.pending_read_size
    omega

/-- A ring of size 4 with one buffered sample and a pending read of 1,
used to witness endRead_spec. -/
def ringPend : RingState :=
  { size := 4, data := fun _ => 0, write_pointer := 1, read_pointer := 0,
    samples_in_buffer := 1, pending_write_size := 0, pending_read_size := 1,
    read_end_signals := 0 }

theorem endRead_spec_witness :
    1 ≤ ringPend.pending_read_size ∧
    ringPend.pending_read_size ≤ ringPend.samples_in_buffer ∧
    ((endRead ringPend 1).read_pointer = (ringPend.read_pointer + 1) % ringPend.size ∧
     (endRead ringPend 1).samples_in_buffer + 1 = ringPend.samples_in_buffer ∧
     (endRead ringPend 1).pending_read_size + 1 = ringPend.pending_read_size ∧
     (endRead ringPend 1).read_end_signals = ringPend.read_end_signals + 1 ∧
     endRead_counter_rmw_order = MemoryOrder.release) :=
  ⟨by decide, by decide, endRead_spec ringPend 1 (by decide) (by decide)⟩

/-- Exhaustive description of a successful beginWrite: the first region
starts at the write pointer with length min(size − write_pointer,
allocating); the two lengths sum to allocating; the second region is at
offset 0 when non-empty and null when empty; the returned state only sets
pending_write_size. -/
theorem beginWrite_cases (s : RingState) (req : Nat) (ma : Bool)
    (regs : RingRegions) (s1 : RingState)
    (h : beginWrite s req ma = some (regs, s1)) :
    req ≤ s.size - s.samples_in_buffer ∧
    regs.ptr1 = some s.write_pointer ∧
    regs.len1 = min (s.size - s.write_pointer)
      (if ma then s.size - s.samples_in_buffer else req) ∧
    regs.len1 + regs.len2 = (if ma then s.size - s.samples_in_buffer else req) ∧
    (regs.len2 = 0 → regs.ptr2 = none) ∧
    (regs.len2 ≠ 0 → regs.ptr2 = some 0) ∧
    s1 = { s with pending_write_size :=
            if ma then s.size - s.samples_in_buffer else req } := by
  by_cases h1 : s.size - s.samples_in_buffer < req
  · simp [beginWrite, h1] at h
  · by_cases h2 :
      min (s.size - s.write_pointer)
          (if ma then s.size - s.samples_in_buffer else req)
        = (if ma then s.size - s.samples_in_buffer else req)
    · simp only [beginWrite, if_neg h1, if_pos h2, Option.some.injEq,
        Prod.mk.injEq] at h
      obtain ⟨hregs, hs1⟩ := h
      subst hregs
      refine ⟨by omega, rfl, h2.symm ▸ rfl, by simpa using h2, fun _ => rfl,
        fun hne => absurd rfl hne, hs1.symm⟩
    · simp only [beginWrite, if_neg h1, if_neg h2, Option.some.injEq,
        Prod.mk.injEq] at h
      obtain ⟨hregs, hs1⟩ := h
      subst hregs
      have hmin : min (s.size - s.write_pointer)
          (if ma then s.size - s.samples_in_buffer else req)
          ≤ (if ma then s.size - s.samples_in_buffer else req) :=
        Nat.min_le_right _ _
      refine ⟨by omega, rfl, rfl, by simp only; omega, fun hz => ?_,
        fun _ => rfl, hs1.symm⟩
      exact absurd hz (by simp only; omega)

/-- Exhaustive description of a successful (non-underflow) beginRead,
mirroring beginWrite_cases on the read side. -/
theorem beginRead_cases (s : RingState) (req : Nat) (ma : Bool)
    (regs : RingRegions) (s1 : RingState)
    (h : beginRead s req ma = (regs, s1)) (hok : regs.ptr1 ≠ none) :
    s.samples_in_buffer ≠ 0 ∧
    (ma = false → req ≤ s.samples_in_buffer) ∧
    regs.ptr1 = some s.read_pointer ∧
    regs.len1 = min (if ma then s.samples_in_buffer else req)
      (s.size - s.read_pointer) ∧
    regs.len1 + regs.len2 = (if ma then s.samples_in_buffer else req) ∧
    (regs.len2 = 0 → regs.ptr2 = none) ∧
    (regs.len2 ≠ 0 → regs.ptr2 = some 0) ∧
    s1 = { s with pending_read_size :=
            if ma then s.samples_in_buffer else req } := by
  by_cases h1 : s.samples_in_buffer = 0 ∨
      (s.samples_in_buffer < req ∧ ma = false)
  · rw [beginRead] at h
    simp only [if_pos h1, Prod.mk.injEq] at h
    exact absurd (h.1 ▸ hok) (by simp)
  · by_cases h2 :
      min (if ma then s.samples_in_buffer else req) (s.size - s.read_pointer)
        = (if ma then s.samples_in_buffer else req)
    · simp only [beginRead, if_neg h1, if_pos h2, Prod.mk.injEq] at h
      obtain ⟨hregs, hs1⟩ := h
      subst hregs
      push_neg at h1
      have hreq : ma = false → req ≤ s.samples_in_buffer := by
        intro hma
        by_contra hc
        exact absurd hma (h1.2 (by omega))
      refine ⟨h1.1, hreq, rfl, h2.symm ▸ rfl,
        by simpa using h2, fun _ => rfl, fun hne => absurd rfl hne, hs1.symm⟩
    · simp only [beginRead, if_neg h1, if_neg h2, Prod.mk.injEq] at h
      obtain ⟨hregs, hs1⟩ := h
      subst hregs
      push_neg at h1
      have hreq : ma = false → req ≤ s.samples_in_buffer := by
        intro hma
        by_contra hc
        exact absurd hma (h1.2 (by omega))
      have hmin : min (if ma then s.samples_in_buffer else req)
          (s.size - s.read_pointer)
          ≤ (if ma then s.samples_in_buffer else req) :=
        Nat.min_le_left _ _
      refine ⟨h1.1, hreq, rfl, rfl, by simp only; omega,
        fun hz => absurd hz (by simp only; omega), fun _ => rfl, hs1.symm⟩

/-- Claim C4: on success, each of beginWrite and beginRead — independently,
in any state where that call succeeds — hands back regions with
len1 + len2 = a, where a is the request when maxAvailable is false and all
available space (write side: size − samples_in_buffer) or all buffered
samples (read side) when maxAvailable is true; the second region is
non-empty exactly when the allocation wraps the end of the buffer, i.e. a
exceeds size minus the current write (resp. read) pointer. -/
theorem begin_regions_partition :
    (∀ (s : RingState) (req : Nat) (ma : Bool) (regs : RingRegions)
        (s1 : RingState),
      beginWrite s req ma = some (regs, s1) →
      regs.len1 + regs.len2
          = (if ma then s.size - s.samples_in_buffer else req) ∧
        (0 < regs.len2 ↔
          s.size - s.write_pointer
            < (if ma then s.size - s.samples_in_buffer else req))) ∧
    (∀ (s : RingState) (req : Nat) (ma : Bool) (regs : RingRegions)
        (s1 : RingState),
      beginRead s req ma = (regs, s1) → regs.ptr1 ≠ none →
      regs.len1 + regs.len2 = (if ma then s.samples_in_buffer else req) ∧
        (0 < regs.len2 ↔
          s.size - s.read_pointer
            < (if ma then s.samples_in_buffer else req))) := by
  constructor
  · intro s req ma regs s1 hw
    obtain ⟨_, _, hw3, hw4, _, _, _⟩ := beginWrite_cases s req ma regs s1 hw
    exact ⟨hw4, by omega⟩
  · intro s req ma regs s1 hr hok
    obtain ⟨_, _, _, hr4, hr5, _, _, _⟩ :=
      beginRead_cases s req ma regs s1 hr hok
    exact ⟨hr5, by omega⟩

/-- A ring of size 4, write pointer 3, read pointer 1, two buffered
samples: a write of two samples wraps, a read of two does not. -/
def ringB : RingState :=
  { size := 4, data := fun _ => 0, write_pointer := 3, read_pointer := 1,
    samples_in_buffer := 2, pending_write_size := 0, pending_read_size := 0,
    read_end_signals := 0 }

theorem begin_regions_partition_witness :
    ((RingRegions.mk 2 (some 2) 0 none).len1
          + (RingRegions.mk 2 (some 2) 0 none).len2
        = (if false then ringEmpty.size - ringEmpty.samples_in_buffer
           else 2) ∧
      (0 < (RingRegions.mk 2 (some 2) 0 none).len2 ↔
        ringEmpty.size - ringEmpty.write_pointer
          < (if false then ringEmpty.size - ringEmpty.samples_in_buffer
             else 2))) ∧
    ((RingRegions.mk 2 (some 1) 0 none).len1
          + (RingRegions.mk 2 (some 1) 0 none).len2
        = (if false then ringB.samples_in_buffer else 2) ∧
      (0 < (RingRegions.mk 2 (some 1) 0 none).len2 ↔
        ringB.size - ringB.read_pointer
          < (if false then ringB.samples_in_buffer else 2))) :=
  ⟨begin_regions_partition.1 ringEmpty 2 false ⟨2, some 2, 0, none⟩
      { ringEmpty with pending_write_size := 2 } (by rfl),
    begin_regions_partition.2 ringB 2 false ⟨2, some 1, 0, none⟩
      { ringB with pending_read_size := 2 } (by rfl) (by decide)⟩

/-- Claim C10: every region returned by beginWrite and beginRead —
independently, in any valid state where that call succeeds — lies inside
the backing array: the first region starts at the current write (resp.
read) pointer and ends at or before index size, the second region (when
present) starts at index 0, and the two lengths together never exceed
size, so every index touched through the regions is in bounds. -/
theorem begin_regions_in_bounds :
    (∀ (s : RingState) (req : Nat) (ma : Bool) (regs : RingRegions)
        (s1 : RingState),
      req ≤ s.size → s.write_pointer < s.size →
      beginWrite s req ma = some (regs, s1) →
      regs.ptr1 = some s.write_pointer ∧
        s.write_pointer + regs.len1 ≤ s.size ∧
        (regs.len2 ≠ 0 → regs.ptr2 = some 0) ∧
        regs.len1 + regs.len2 ≤ s.size) ∧
    (∀ (s : RingState) (req : Nat) (ma : Bool) (regs : RingRegions)
        (s1 : RingState),
      req ≤ s.size → s.read_pointer < s.size →
      s.samples_in_buffer ≤ s.size →
      beginRead s req ma = (regs, s1) → regs.ptr1 ≠ none →
      regs.ptr1 = some s.read_pointer ∧
        s.read_pointer + regs.len1 ≤ s.size ∧
        (regs.len2 ≠ 0 → regs.ptr2 = some 0) ∧
        regs.len1 + regs.len2 ≤ s.size) := by
  constructor
  · intro s req ma regs s1 hreq hwp hw
    obtain ⟨hw1, hw2, hw3, hw4, hw5, hw6, hw7⟩ :=
      beginWrite_cases s req ma regs s1 hw
    have hwA : (if ma then s.size - s.samples_in_buffer else req)
        ≤ s.size := by
      cases ma <;> simp <;> omega
    have hwl : regs.len1 ≤ s.size - s.write_pointer := by
      rw [hw3]
      exact Nat.min_le_left _ _
    exact ⟨hw2, by omega, hw6, by omega⟩
  · intro s req ma regs s1 hreq hrp hsib hr hok
    obtain ⟨hr1, hr2, hr3, hr4, hr5, hr6, hr7, hr8⟩ :=
      beginRead_cases s req ma regs s1 hr hok
    have hrA : (if ma then s.samples_in_buffer else req) ≤ s.size := by
      cases ma <;> simp <;> omega
    have hrl : regs.len1 ≤ s.size - s.read_pointer := by
      rw [hr4]
      exact Nat.min_le_right _ _
    exact ⟨hr3, by omega, hr7, by omega⟩

theorem begin_regions_in_bounds_witness :
    ((RingRegions.mk 2 (some 2) 0 none).ptr1
        = some ringEmpty.write_pointer ∧
      ringEmpty.write_pointer + (RingRegions.mk 2 (some 2) 0 none).len1
        ≤ ringEmpty.size ∧
      ((RingRegions.mk 2 (some 2) 0 none).len2 ≠ 0 →
        (RingRegions.mk 2 (some 2) 0 none).ptr2 = some 0) ∧
      (RingRegions.mk 2 (some 2) 0 none).len1
          + (RingRegions.mk 2 (some 2) 0 none).len2 ≤ ringEmpty.size) ∧
    ((RingRegions.mk 2 (some 1) 0 none).ptr1
        = some ringB.read_pointer ∧
      ringB.read_pointer + (RingRegions.mk 2 (some 1) 0 none).len1
        ≤ ringB.size ∧
      ((RingRegions.mk 2 (some 1) 0 none).len2 ≠ 0 →
        (RingRegions.mk 2 (some 1) 0 none).ptr2 = some 0) ∧
      (RingRegions.mk 2 (some 1) 0 none).len1
          + (RingRegions.mk 2 (some 1) 0 none).len2 ≤ ringB.size) :=
  ⟨begin_regions_in_bounds.1 ringEmpty 2 false ⟨2, some 2, 0, none⟩
      { ringEmpty with pending_write_size := 2 } (by decide) (by decide)
      (by rfl),
    begin_regions_in_bounds.2 ringB 2 false ⟨2, some 1, 0, none⟩
      { ringB with pending_read_size := 2 } (by decide) (by decide)
      (by decide) (by rfl) (by decide)⟩

/-- The library-internal filter definition consumed by convertBiquadDef.
Modelled from the spec: BiquadFilterDef lives in filter_design.hpp, which is
not among the sources; convertBiquadDef (src/filter_properties.cpp) reads
num_coefs[0..2], den_coefs[0..1] and gain from it, so it is modelled with
exactly those fields.  C doubles are modelled as exact rationals; every
value handled here (0, 1, and abstract coefficients) is representable. -/
structure BiquadFilterDef where
  num_coefs : Fin 3 → ℚ
  den_coefs : Fin 2 → ℚ
  gain : ℚ
deriving DecidableEq

/-- The external syz_BiquadConfig. Modelled from the spec: declared in
synthizer.h (not among the sources); its fields b0 b1 b2 a1 a2 gain are the
ones convertBiquadDef assigns and the identity filter is described by. -/
structure syz_BiquadConfig where
  b0 : ℚ
  b1 : ℚ
  b2 : ℚ
  a1 : ℚ
  a2 : ℚ
  gain : ℚ
deriving DecidableEq

/-- convertBiquadDef (src/filter_properties.cpp lines 19-28). -/
def convertBiquadDef (def_ : BiquadFilterDef) : syz_BiquadConfig :=
  { b0 := def_.num_coefs 0
    b1 := def_.num_coefs 1
    b2 := def_.num_coefs 2
    a1 := def_.den_coefs 0
    a2 := def_.den_coefs 1
    gain := def_.gain }

/-- Modelled from the spec: config::SR (config.hpp, not among the sources)
is the compile-time sample rate, typically 44100 Hz.  None of the theorems
below depend on its value. -/
def SR : ℚ := 44100

/-- Modelled from the spec: SYZ_PROLOGUE / SYZ_EPILOGUE (c_api.hpp, not
among the sources) convert a C++ exception escaping the body into a nonzero
syz_ErrorCode, and external API calls signal errors by return code and
leave output parameters untouched.  A body that assigns
convertBiquadDef(design...) through the output pointer is therefore
modelled as: if the designer (or the prologue) fails with error e, return
(e, old filter value); otherwise perform the assignment and return 0. -/
def biquadDesignBody (filter : syz_BiquadConfig)
    (result : Except Nat BiquadFilterDef) : Nat × syz_BiquadConfig :=
  match result with
  | Except.error e => (e, filter)
  | Except.ok d => (0, convertBiquadDef d)

/-- syz_biquadDesignIdentity (src/filter_properties.cpp lines 30-37):
value-initialize the config (all fields zero), then set b0 = 1.0 and
gain = 1.0, and return 0.  The body cannot fail. -/
def syz_biquadDesignIdentity : Nat × syz_BiquadConfig :=
  let f0 : syz_BiquadConfig :=
    { b0 := 0, b1 := 0, b2 := 0, a1 := 0, a2 := 0, gain := 0 }
  let f1 := { f0 with b0 := 1 }
  let f2 := { f1 with gain := 1 }
  (0, f2)

/-- syz_biquadDesignLowpass (src/filter_properties.cpp lines 39-44): write
convertBiquadDef(designAudioEqLowpass(frequency / config::SR, q)) through
the output pointer and return 0.  The designer (audio_eq_cookbook.cpp, not
among the sources) is an abstract parameter that may fail. -/
def syz_biquadDesignLowpass
    (designAudioEqLowpass : ℚ → ℚ → Except Nat BiquadFilterDef)
    (filter : syz_BiquadConfig) (frequency q : ℚ) : Nat × syz_BiquadConfig :=
  biquadDesignBody filter (designAudioEqLowpass (frequency / SR) q)

/-- syz_biquadDesignHighpass (src/filter_properties.cpp lines 46-51). -/
def syz_biquadDesignHighpass
    (designAudioEqHighpass : ℚ → ℚ → Except Nat BiquadFilterDef)
    (filter : syz_BiquadConfig) (frequency q : ℚ) : Nat × syz_BiquadConfig :=
  biquadDesignBody filter (designAudioEqHighpass (frequency / SR) q)

/-- syz_biquadDesignBandpass (src/filter_properties.cpp lines 53-58). -/
def syz_biquadDesignBandpass
    (designAudioEqBandpass : ℚ → ℚ → Except Nat BiquadFilterDef)
    (filter : syz_BiquadConfig) (frequency bw : ℚ) : Nat × syz_BiquadConfig :=
  biquadDesignBody filter (designAudioEqBandpass (frequency / SR) bw)

/-- Claim C6: syz_biquadDesignIdentity returns 0 (success) and stores the
configuration b0 = 1, b1 = b2 = a1 = a2 = 0, gain = 1. -/
theorem biquadDesignIdentity_spec :
    syz_biquadDesignIdentity =
      (0, { b0 := 1, b1 := 0, b2 := 0, a1 := 0, a2 := 0, gain := 1 }) := by
  rfl

/-- Claim C7: whenever syz_biquadDesignLowpass, syz_biquadDesignHighpass or
syz_biquadDesignBandpass returns a nonzero error code, the output parameter
holds exactly the value it held before the call: the only write to it is on
the success path, after the designer has returned. -/
theorem biquadDesign_error_leaves_output (designL designH designB :
      ℚ → ℚ → Except Nat BiquadFilterDef)
    (filter : syz_BiquadConfig) (frequency p : ℚ) :
    ((syz_biquadDesignLowpass designL filter frequency p).1 ≠ 0 →
      (syz_biquadDesignLowpass designL filter frequency p).2 = filter) ∧
    ((syz_biquadDesignHighpass designH filter frequency p).1 ≠ 0 →
      (syz_biquadDesignHighpass designH filter frequency p).2 = filter) ∧
    ((syz_biquadDesignBandpass designB filter frequency p).1 ≠ 0 →
      (syz_biquadDesignBandpass designB filter frequency p).2 = filter) := by
  refine ⟨?_, ?_, ?_⟩ <;>
    simp only [syz_biquadDesignLowpass, syz_biquadDesignHighpass,
      syz_biquadDesignBandpass]
  · cases h : designL (frequency / SR) p with
    | error e => intro _; simp [biquadDesignBody, h]
    | ok d => simp [biquadDesignBody, h]
  · cases h : designH (frequency / SR) p with
    | error e => intro _; simp [biquadDesignBody, h]
    | ok d => simp [biquadDesignBody, h]
  · cases h : designB (frequency / SR) p with
    | error e => intro _; simp [biquadDesignBody, h]
    | ok d => simp [biquadDesignBody, h]

/-- A designer that always fails with error code 5, and one that always
succeeds with fixed coefficients; used to witness the filter theorems. -/
def failingDesigner : ℚ → ℚ → Except Nat BiquadFilterDef :=
  fun _ _ => Except.error 5

def identityConfig : syz_BiquadConfig :=
  { b0 := 1, b1 := 0, b2 := 0, a1 := 0, a2 := 0, gain := 1 }

theorem biquadDesign_error_leaves_output_witness :
    (syz_biquadDesignLowpass failingDesigner identityConfig 440 1).1 ≠ 0 ∧
    (syz_biquadDesignLowpass failingDesigner identityConfig 440 1).2
        = identityConfig ∧
    (syz_biquadDesignHighpass failingDesigner identityConfig 440 1).2
        = identityConfig ∧
    (syz_biquadDesignBandpass failingDesigner identityConfig 440 1).2
        = identityConfig :=
  ⟨by decide,
    (biquadDesign_error_leaves_output failingDesigner failingDesigner
      failingDesigner identityConfig 440 1).1 (by decide),
    (biquadDesign_error_leaves_output failingDesigner failingDesigner
      failingDesigner identityConfig 440 1).2.1 (by decide),
    (biquadDesign_error_leaves_output failingDesigner failingDesigner
      failingDesigner identityConfig 440 1).2.2 (by decide)⟩

/-- Claim C8: a successful syz_biquadDesignLowpass(out, f, q) stores
convertBiquadDef(designAudioEqLowpass(f / SR, q)) and returns 0, where
convertBiquadDef maps num_coefs[0..2] to b0 b1 b2, den_coefs[0..1] to
a1 a2, and gain to gain; syz_biquadDesignHighpass and
syz_biquadDesignBandpass likewise call their designers at normalized
frequency f / SR. -/
theorem biquadDesign_normalized_frequency (designL designH designB :
      ℚ → ℚ → Except Nat BiquadFilterDef)
    (filter : syz_BiquadConfig) (frequency p : ℚ) (dL dH dB : BiquadFilterDef)
    (hL : designL (frequency / SR) p = Except.ok dL)
    (hH : designH (frequency / SR) p = Except.ok dH)
    (hB : designB (frequency / SR) p = Except.ok dB) :
    syz_biquadDesignLowpass designL filter frequency p
        = (0, convertBiquadDef dL) ∧
    syz_biquadDesignHighpass designH filter frequency p
        = (0, convertBiquadDef dH) ∧
    syz_biquadDesignBandpass designB filter frequency p
        = (0, convertBiquadDef dB) ∧
    convertBiquadDef dL =
      { b0 := dL.num_coefs 0, b1 := dL.num_coefs 1, b2 := dL.num_coefs 2,
        a1 := dL.den_coefs 0, a2 := dL.den_coefs 1, gain := dL.gain } := by
  refine ⟨?_, ?_, ?_, rfl⟩
  · simp [syz_biquadDesignLowpass, biquadDesignBody, hL]
  · simp [syz_biquadDesignHighpass, biquadDesignBody, hH]
  · simp [syz_biquadDesignBandpass, biquadDesignBody, hB]

/-- A designer that always returns fixed coefficients, to witness C8. -/
def constDesigner : ℚ → ℚ → Except Nat BiquadFilterDef :=
  fun _ _ => Except.ok
    { num_coefs := ![2, 3, 4], den_coefs := ![5, 6], gain := 7 }

theorem biquadDesign_normalized_frequency_witness :
    constDesigner (440 / SR) 1 = Except.ok
        { num_coefs := ![2, 3, 4], den_coefs := ![5, 6], gain := 7 } ∧
    syz_biquadDesignLowpass constDesigner identityConfig 440 1
        = (0, convertBiquadDef
            { num_coefs := ![2, 3, 4], den_coefs := ![5, 6], gain := 7 }) :=
  ⟨rfl, (biquadDesign_normalized_frequency constDesigner constDesigner
    constDesigner identityConfig 440 1 _ _ _ rfl rfl rfl).1⟩

/-- Modelled from the spec: config::BLOCK_SIZE (config.hpp, not among the
sources) is the fixed block length, typically 256 frames.  The theorems
below do not depend on its value. -/
def BLOCK_SIZE : Nat := 256

/-- State of a GlobalEffect (include/synthizer/effects/global_effect.hpp):
the input bus written by routers, the effect's channel count, the running
block counter, the channel count the filter was last built for, and whether
a biquad filter object currently exists. -/
structure GlobalEffect where
  input_buffer : Nat → Int
  channels : Nat
  time_in_blocks : Nat
  last_channels : Nat
  has_biquad_filter : Bool

/-- GlobalEffect::run (global_effect.hpp lines 30-51).  The biquad filter's
processBlock (an in-place transform of the input bus) and the virtual
runEffect (which reads the input bus and produces the destination block)
are abstract parameters: biquad.cpp and the concrete effects are not among
the sources, and the claim is about run's orchestration.  run: (re)create
the filter if absent or stale and channels ≠ 0; if a filter exists, process
the input bus in place; call runEffect on the (filtered) input bus; zero
the first channels × BLOCK_SIZE entries of the input bus; bump the block
counter.  acquireFilter/configure only mutate the filter's coefficients,
which live inside the abstract processBlock, so they do not appear. -/
def GlobalEffect.run (st : GlobalEffect)
    (processBlock : (Nat → Int) → (Nat → Int))
    (runEffect : Nat → Nat → (Nat → Int) → Nat → (Nat → Int))
    (channels : Nat) : GlobalEffect × (Nat → Int) :=
  let has1 :=
    if (st.has_biquad_filter = false ∨ st.channels ≠ st.last_channels) ∧
        st.channels ≠ 0 then
      true
    else st.has_biquad_filter
  let buf1 := if has1 then processBlock st.input_buffer else st.input_buffer
  let destination := runEffect st.time_in_blocks st.channels buf1 channels
  let buf2 : Nat → Int :=
    fun j => if j < st.channels * BLOCK_SIZE then 0 else buf1 j
  ({ st with
      input_buffer := buf2,
      last_channels := st.channels,
      has_biquad_filter := has1,
      time_in_blocks := st.time_in_blocks + 1 },
    destination)

/-- Claim C5: with channel count c > 0, run applies the biquad filter in
place to the input bus, then runs the effect DSP on the filtered bus to
produce the destination, then zeroes the first c × BLOCK_SIZE entries of
the input bus — so after run returns the effect's input bus is entirely
zero for its c channels. -/
theorem globalEffect_run_spec (st : GlobalEffect)
    (processBlock : (Nat → Int) → (Nat → Int))
    (runEffect : Nat → Nat → (Nat → Int) → Nat → (Nat → Int))
    (channels : Nat) (hc : 0 < st.channels) :
    (GlobalEffect.run st processBlock runEffect channels).2
        = runEffect st.time_in_blocks st.channels
            (processBlock st.input_buffer) channels ∧
    ∀ j < st.channels * BLOCK_SIZE,
      (GlobalEffect.run st processBlock runEffect channels).1.input_buffer j
        = 0 := by
  have hhas : (if (st.has_biquad_filter = false ∨
        st.channels ≠ st.last_channels) ∧ st.channels ≠ 0 then
        true
      else st.has_biquad_filter) = true := by
    split
    · rfl
    · rename_i hcond
      push_neg at hcond
      rcases Bool.eq_false_or_eq_true st.has_biquad_filter with hb | hb
      · exact hb
      · exact absurd (hcond (Or.inl hb)) (by omega)
  constructor
  · show runEffect st.time_in_blocks st.channels
        (if (if (st.has_biquad_filter = false ∨
              st.channels ≠ st.last_channels) ∧ st.channels ≠ 0 then
            true
          else st.has_biquad_filter) = true then
          processBlock st.input_buffer
        else st.input_buffer) channels
      = runEffect st.time_in_blocks st.channels
          (processBlock st.input_buffer) channels
    rw [hhas]
    simp
  · intro j hj
    show (if j < st.channels * BLOCK_SIZE then 0 else _) = 0
    rw [if_pos hj]

/-- A concrete one-channel effect state to witness globalEffect_run_spec. -/
def effectW : GlobalEffect :=
  { input_buffer := fun _ => 3, channels := 1, time_in_blocks := 0,
    last_channels := 0, has_biquad_filter := false }

theorem globalEffect_run_spec_witness :
    0 < effectW.channels ∧
    ((GlobalEffect.run effectW id (fun _ _ b _ => b) 1).2
        = (fun _ _ b _ => b) effectW.time_in_blocks effectW.channels
            (id effectW.input_buffer) 1 ∧
      ∀ j < effectW.channels * BLOCK_SIZE,
        (GlobalEffect.run effectW id (fun _ _ b _ => b) 1).1.input_buffer j
          = 0) :=
  ⟨by decide,
    globalEffect_run_spec effectW id (fun _ _ b _ => b) 1 (by decide)⟩

/-- Write the list ws into the backing array starting at offset off (the
client-side memcpy into one region returned by beginWrite). -/
def storeList (data : Nat → Int) (off : Nat) (ws : List Int) : Nat → Int :=
  fun j => if off ≤ j ∧ j < off + ws.length then ws.getD (j - off) 0 else data j

/-- Write through a region pointer; a null pointer stores nothing. -/
def regionStore (data : Nat → Int) (ptr : Option Nat) (ws : List Int) :
    Nat → Int :=
  match ptr with
  | none => data
  | some off => storeList data off ws

/-- Read len samples through a region pointer; a null pointer yields
nothing. -/
def regionFetch (data : Nat → Int) (ptr : Option Nat) (len : Nat) :
    List Int :=
  match ptr with
  | none => []
  | some off => (List.range len).map fun i => data (off + i)

/-- One completed write transaction, as described by claim C1: beginWrite
for ws.length samples, copy ws into the returned regions in order (first
region, then second), endWrite committing all ws.length samples.  none when
beginWrite would block. -/
def writeTx (s : RingState) (ws : List Int) : Option RingState :=
  match beginWrite s ws.length false with
  | none => none
  | some (regs, s1) =>
    let d1 := regionStore s1.data regs.ptr1 (ws.take regs.len1)
    let d2 := regionStore d1 regs.ptr2 (ws.drop regs.len1)
    some (endWrite { s1 with data := d2 } ws.length)

/-- One read transaction: beginRead; on underflow consume nothing (the
audio thread emits silence for the tick); otherwise copy both regions out
and endRead the whole pending read. -/
def readTx (s : RingState) (requested : Nat) (maxAvailable : Bool) :
    List Int × RingState :=
  match beginRead s requested maxAvailable with
  | (regs, s1) =>
    match regs.ptr1 with
    | none => ([], s1)
    | some _ =>
      (regionFetch s1.data regs.ptr1 regs.len1
          ++ regionFetch s1.data regs.ptr2 regs.len2,
        endRead s1 (regs.len1 + regs.len2))

/-- One step of an alternating producer/consumer schedule. -/
inductive RingOp where
  | write (ws : List Int)
  | read (requested : Nat) (maxAvailable : Bool)

/-- Run a schedule, accumulating the concatenation of all committed writes
and of all samples obtained by reads; none if some write never completes. -/
def runOps (s : RingState) :
    List RingOp → Option (List Int × List Int × RingState)
  | [] => some ([], [], s)
  | RingOp.write ws :: rest =>
    match writeTx s ws with
    | none => none
    | some s1 =>
      match runOps s1 rest with
      | none => none
      | some (w, r, sf) => some (ws ++ w, r, sf)
  | RingOp.read req ma :: rest =>
    match runOps (readTx s req ma).2 rest with
    | none => none
    | some (w, r, sf) => some (w, (readTx s req ma).1 ++ r, sf)

/-- A freshly constructed ring: both pointers 0, counter 0, and the backing
array zero-initialized (new ELEM_T[n]() value-initializes; the inline
provider value-initializes its std::array likewise). -/
def initRing (size : Nat) : RingState :=
  { size := size, data := fun _ => 0, write_pointer := 0, read_pointer := 0,
    samples_in_buffer := 0, pending_write_size := 0, pending_read_size := 0,
    read_end_signals := 0 }

/-- Run a schedule from a fresh ring and keep only the committed-samples
and read-samples traces. -/
def runTrace (size : Nat) (ops : List RingOp) :
    Option (List Int × List Int) :=
  match runOps (initRing size) ops with
  | none => none
  | some (w, r, _) => some (w, r)

/-- The state invariant of a ring in use: pointers in range, counter within
capacity, and the write pointer sits samples_in_buffer ahead of the read
pointer (the comment at audio_ring.hpp line 47: write == read means the
buffer is empty). -/
def ringInv (s : RingState) : Prop :=
  0 < s.size ∧ s.write_pointer < s.size ∧ s.read_pointer < s.size ∧
    s.samples_in_buffer ≤ s.size ∧
    s.write_pointer = (s.read_pointer + s.samples_in_buffer) % s.size

/-- The abstract FIFO contents of the ring: the samples_in_buffer samples
starting at the read pointer, wrapping modulo size. -/
def absQueue (s : RingState) : List Int :=
  (List.range s.samples_in_buffer).map
    fun i => s.data ((s.read_pointer + i) % s.size)

theorem take_getD (l : List Int) (n m : Nat) (h : m < n) :
    (l.take n).getD m 0 = l.getD m 0 := by
  induction l generalizing n m with
  | nil => simp
  | cons a t ih =>
    cases n with
    | zero => omega
    | succ n =>
      cases m with
      | zero => simp
      | succ m =>
        simp only [List.take_succ_cons, List.getD_cons_succ]
        exact ih n m (by omega)

theorem drop_getD (l : List Int) (n m : Nat) :
    (l.drop n).getD m 0 = l.getD (n + m) 0 := by
  induction l generalizing n with
  | nil => simp
  | cons a t ih =>
    cases n with
    | zero => simp
    | succ n =>
      simp only [List.drop_succ_cons, Nat.succ_add, List.getD_cons_succ]
      exact ih n

theorem map_getD_range (l : List Int) :
    (List.range l.length).map (fun i => l.getD i 0) = l := by
  induction l with
  | nil => simp
  | cons a t ih =>
    rw [List.length_cons, List.range_succ_eq_map, List.map_cons,
      List.map_map]
    simp only [List.getD_cons_zero, Function.comp]
    rw [List.cons_inj_right]
    calc (List.range t.length).map (fun i => (a :: t).getD (i + 1) 0)
        = (List.range t.length).map (fun i => t.getD i 0) := by
          apply List.map_congr_left
          intro i _
          rw [List.getD_cons_succ]
      _ = t := ih

/-- Adding the same base and reducing mod size is injective below size. -/
theorem add_mod_inj (size rp i j : Nat) (hi : i < size) (hj : j < size)
    (h : (rp + i) % size = (rp + j) % size) : i = j := by
  have h2 : i ≡ j [MOD size] := Nat.ModEq.add_left_cancel' rp h
  have h3 : i % size = j % size := h2
  rwa [Nat.mod_eq_of_lt hi, Nat.mod_eq_of_lt hj] at h3

/-- Positions sib + k past the read pointer land at write_pointer + k,
modulo size. -/
theorem shift_mod (size rp sib wp k : Nat)
    (hptr : wp = (rp + sib) % size) :
    (rp + (sib + k)) % size = (wp + k) % size := by
  rw [hptr, Nat.mod_add_mod, ← Nat.add_assoc]

theorem storeList_in (data : Nat → Int) (off : Nat) (ws : List Int)
    (j : Nat) (h1 : off ≤ j) (h2 : j < off + ws.length) :
    storeList data off ws j = ws.getD (j - off) 0 := by
  simp only [storeList]
  rw [if_pos ⟨h1, h2⟩]

theorem storeList_out (data : Nat → Int) (off : Nat) (ws : List Int)
    (j : Nat) (h : ¬(off ≤ j ∧ j < off + ws.length)) :
    storeList data off ws j = data j := by
  simp only [storeList]
  rw [if_neg h]

/-- Copying ws into the single region beginning at the write pointer (the
non-wrapping case of a write transaction) places each sample ws[k] at ring
position read_pointer + samples_in_buffer + k mod size, and leaves the
buffered samples untouched. -/
theorem storeNoWrap (data : Nat → Int) (ws : List Int)
    (size wp rp sib : Nat) (hsz : 0 < size) (hwp : wp < size)
    (hfit : sib + ws.length ≤ size) (hptr : wp = (rp + sib) % size)
    (hnw : ws.length ≤ size - wp) :
    ∀ i, i < sib + ws.length →
      storeList data wp ws ((rp + i) % size) =
        if i < sib then data ((rp + i) % size)
        else ws.getD (i - sib) 0 := by
  intro i hi
  by_cases hcase : i < sib
  · rw [if_pos hcase]
    apply storeList_out
    rintro ⟨h1, h2⟩
    set p := (rp + i) % size with hp
    have hlt : wp + (p - wp) < size := by omega
    have heq : (rp + (sib + (p - wp))) % size = p := by
      rw [shift_mod size rp sib wp _ hptr, Nat.mod_eq_of_lt hlt]
      omega
    have hieq : i = sib + (p - wp) := by
      apply add_mod_inj size rp i (sib + (p - wp)) (by omega) (by omega)
      rw [heq]
    omega
  · rw [if_neg hcase]
    have hlt : wp + (i - sib) < size := by omega
    have hpos : (rp + i) % size = wp + (i - sib) := by
      have hsplit : i = sib + (i - sib) := by omega
      rw [hsplit, shift_mod size rp sib wp _ hptr, Nat.mod_eq_of_lt hlt]
      omega
    rw [hpos, storeList_in data wp ws _ (by omega) (by omega)]
    congr 1
    omega

/-- Copying ws into the two regions returned by a wrapping write
transaction — first the tail of the array starting at the write pointer,
then the head of the array at offset 0 — likewise realizes the modular
placement of each ws[k] and leaves the buffered samples untouched. -/
theorem storeWrap (data : Nat → Int) (ws : List Int)
    (size wp rp sib : Nat) (hsz : 0 < size) (hwp : wp < size)
    (hfit : sib + ws.length ≤ size) (hptr : wp = (rp + sib) % size)
    (hw : size - wp < ws.length) :
    ∀ i, i < sib + ws.length →
      storeList (storeList data wp (ws.take (size - wp))) 0
          (ws.drop (size - wp)) ((rp + i) % size) =
        if i < sib then data ((rp + i) % size)
        else ws.getD (i - sib) 0 := by
  intro i hi
  have hlen1 : (ws.take (size - wp)).length = size - wp := by
    rw [List.length_take]
    omega
  have hlen2 : (ws.drop (size - wp)).length = ws.length - (size - wp) :=
    List.length_drop _ _
  by_cases hcase : i < sib
  · rw [if_pos hcase]
    set p := (rp + i) % size with hp
    have hplt : p < size := Nat.mod_lt _ hsz
    have hnot2 : ¬ p < ws.length - (size - wp) := by
      intro hc
      have heq : (rp + (sib + ((size - wp) + p))) % size = p := by
        rw [shift_mod size rp sib wp _ hptr]
        have hstep : wp + ((size - wp) + p) = size + p := by omega
        rw [hstep, Nat.add_mod_left, Nat.mod_eq_of_lt hplt]
      have hieq : i = sib + ((size - wp) + p) :=
        add_mod_inj size rp i _ (by omega) (by omega) (by rw [heq])
      omega
    have hnot1 : ¬ wp ≤ p := by
      intro hc
      have hlt : wp + (p - wp) < size := by omega
      have heq : (rp + (sib + (p - wp))) % size = p := by
        rw [shift_mod size rp sib wp _ hptr, Nat.mod_eq_of_lt hlt]
        omega
      have hieq : i = sib + (p - wp) :=
        add_mod_inj size rp i _ (by omega) (by omega) (by rw [heq])
      omega
    rw [storeList_out _ 0 _ p (by omega), storeList_out _ wp _ p (by omega)]
  · rw [if_neg hcase]
    by_cases hk : i - sib < size - wp
    · have hlt : wp + (i - sib) < size := by omega
      have hpos : (rp + i) % size = wp + (i - sib) := by
        have hsplit : i = sib + (i - sib) := by omega
        rw [hsplit, shift_mod size rp sib wp _ hptr, Nat.mod_eq_of_lt hlt]
        omega
      rw [hpos]
      have hge2 : ¬ wp + (i - sib) < ws.length - (size - wp) := by omega
      rw [storeList_out _ 0 _ _ (by omega),
        storeList_in _ wp _ _ (by omega) (by omega),
        take_getD _ _ _ (by omega)]
      congr 1
      omega
    · have hstep : wp + (i - sib) = size + (i - sib - (size - wp)) := by
        omega
      have hlt2 : i - sib - (size - wp) < size := by omega
      have hpos : (rp + i) % size = i - sib - (size - wp) := by
        have hsplit : i = sib + (i - sib) := by omega
        rw [hsplit, shift_mod size rp sib wp _ hptr, hstep,
          Nat.add_mod_left, Nat.mod_eq_of_lt hlt2]
        omega
      rw [hpos, storeList_in _ 0 _ _ (by omega) (by omega)]
      rw [Nat.sub_zero, drop_getD]
      congr 1
      omega

/-- Assembling the abstract queue after a write: the pointwise description
of the stored data turns the range map into old queue ++ ws. -/
theorem absQueue_build (size rp sib : Nat) (d d' : Nat → Int)
    (ws : List Int)
    (hpt : ∀ i, i < sib + ws.length →
        d' ((rp + i) % size) =
          if i < sib then d ((rp + i) % size) else ws.getD (i - sib) 0) :
    (List.range (sib + ws.length)).map (fun i => d' ((rp + i) % size)) =
      (List.range sib).map (fun i => d ((rp + i) % size)) ++ ws := by
  rw [List.range_add, List.map_append, List.map_map]
  congr 1
  · apply List.map_congr_left
    intro i hi
    rw [List.mem_range] at hi
    rw [hpt i (by omega), if_pos hi]
  · conv_rhs => rw [← map_getD_range ws]
    apply List.map_congr_left
    intro k hk
    rw [List.mem_range] at hk
    simp only [Function.comp]
    rw [hpt (sib + k) (by omega), if_neg (by omega)]
    congr 1
    omega

/-- A completed write transaction appends exactly its samples to the
abstract queue and preserves the ring invariant. -/
theorem writeTx_spec (s s' : RingState) (ws : List Int) (hinv : ringInv s)
    (h : writeTx s ws = some s') :
    ringInv s' ∧ absQueue s' = absQueue s ++ ws := by
  obtain ⟨hsz, hwp, hrp, hsib, hptr⟩ := hinv
  cases hb : beginWrite s ws.length false with
  | none =>
    rw [writeTx, hb] at h
    exact absurd h (by simp)
  | some pr =>
    obtain ⟨regs, s1⟩ := pr
    rw [writeTx, hb] at h
    simp only [Option.some.injEq] at h
    obtain ⟨hc1, hc2, hc3, hc4, hc5, hc6, hc7⟩ :=
      beginWrite_cases s ws.length false regs s1 hb
    rw [if_neg Bool.false_ne_true] at hc3 hc4 hc7
    subst hc7
    by_cases hwrap : ws.length ≤ s.size - s.write_pointer
    · have hlen1 : regs.len1 = ws.length := by
        rw [hc3]
        omega
      have hlen2 : regs.len2 = 0 := by omega
      have hptr2 : regs.ptr2 = none := hc5 hlen2
      rw [hc2, hptr2, hlen1, List.take_length] at h
      subst h
      refine ⟨⟨hsz, Nat.mod_lt _ hsz, hrp, ?_, ?_⟩, ?_⟩
      · show s.samples_in_buffer + ws.length ≤ s.size
        omega
      · show (s.write_pointer + ws.length) % s.size
            = (s.read_pointer + (s.samples_in_buffer + ws.length)) % s.size
        exact (shift_mod s.size s.read_pointer s.samples_in_buffer
          s.write_pointer ws.length hptr).symm
      · show (List.range (s.samples_in_buffer + ws.length)).map
            (fun i => storeList s.data s.write_pointer ws
              ((s.read_pointer + i) % s.size))
          = (List.range s.samples_in_buffer).map
              (fun i => s.data ((s.read_pointer + i) % s.size)) ++ ws
        exact absQueue_build s.size s.read_pointer s.samples_in_buffer
          s.data _ ws
          (storeNoWrap s.data ws s.size s.write_pointer s.read_pointer
            s.samples_in_buffer hsz hwp (by omega) hptr hwrap)
    · have hlen1 : regs.len1 = s.size - s.write_pointer := by
        rw [hc3]
        omega
      have hlen2 : regs.len2 ≠ 0 := by omega
      have hptr2 : regs.ptr2 = some 0 := hc6 hlen2
      rw [hc2, hptr2, hlen1] at h
      subst h
      refine ⟨⟨hsz, Nat.mod_lt _ hsz, hrp, ?_, ?_⟩, ?_⟩
      · show s.samples_in_buffer + ws.length ≤ s.size
        omega
      · show (s.write_pointer + ws.length) % s.size
            = (s.read_pointer + (s.samples_in_buffer + ws.length)) % s.size
        exact (shift_mod s.size s.read_pointer s.samples_in_buffer
          s.write_pointer ws.length hptr).symm
      · show (List.range (s.samples_in_buffer + ws.length)).map
            (fun i => storeList
              (storeList s.data s.write_pointer
                (ws.take (s.size - s.write_pointer))) 0
              (ws.drop (s.size - s.write_pointer))
              ((s.read_pointer + i) % s.size))
          = (List.range s.samples_in_buffer).map
              (fun i => s.data ((s.read_pointer + i) % s.size)) ++ ws
        exact absQueue_build s.size s.read_pointer s.samples_in_buffer
          s.data _ ws
          (storeWrap s.data ws s.size s.write_pointer s.read_pointer
            s.samples_in_buffer hsz hwp (by omega) hptr (by omega))

/-- When beginRead reports underflow (null first pointer), the state it
returns is the state it was given. -/
theorem beginRead_null (s : RingState) (req : Nat) (ma : Bool)
    (regs : RingRegions) (s1 : RingState)
    (h : beginRead s req ma = (regs, s1)) (hp : regs.ptr1 = none) :
    s1 = s := by
  by_cases hc : s.samples_in_buffer = 0 ∨
      (s.samples_in_buffer < req ∧ ma = false)
  · simp only [beginRead, if_pos hc, Prod.mk.injEq] at h
    exact h.2.symm
  · by_cases h2 :
      min (if ma then s.samples_in_buffer else req) (s.size - s.read_pointer)
        = (if ma then s.samples_in_buffer else req)
    · simp only [beginRead, if_neg hc, if_pos h2, Prod.mk.injEq] at h
      rw [← h.1] at hp
      simp at hp
    · simp only [beginRead, if_neg hc, if_neg h2, Prod.mk.injEq] at h
      rw [← h.1] at hp
      simp at hp

/-- Reading A consecutive modular positions splits into nothing special
when it does not reach the end of the array. -/
theorem range_map_mod (d : Nat → Int) (size rp A : Nat)
    (h : rp + A ≤ size) :
    (List.range A).map (fun i => d ((rp + i) % size)) =
      (List.range A).map (fun i => d (rp + i)) := by
  apply List.map_congr_left
  intro i hi
  rw [List.mem_range] at hi
  rw [Nat.mod_eq_of_lt (by omega)]

/-- Reading A consecutive modular positions that wrap the end of the array
splits into a tail segment from rp and a head segment from 0. -/
theorem range_map_mod_wrap (d : Nat → Int) (size rp A : Nat)
    (hrp : rp < size) (hlo : size - rp < A) (hA : A ≤ size) :
    (List.range A).map (fun i => d ((rp + i) % size)) =
      (List.range (size - rp)).map (fun i => d (rp + i))
        ++ (List.range (A - (size - rp))).map (fun i => d (0 + i)) := by
  have hsplit : A = (size - rp) + (A - (size - rp)) := by omega
  conv_lhs => rw [hsplit]
  rw [List.range_add, List.map_append, List.map_map]
  congr 1
  · apply List.map_congr_left
    intro i hi
    rw [List.mem_range] at hi
    rw [Nat.mod_eq_of_lt (by omega)]
  · apply List.map_congr_left
    intro k hk
    rw [List.mem_range] at hk
    simp only [Function.comp]
    have hstep : rp + ((size - rp) + k) = size + k := by omega
    rw [hstep, Nat.add_mod_left, Nat.mod_eq_of_lt (by omega),
      Nat.zero_add]

/-- A read transaction removes exactly the samples it returns from the
front of the abstract queue and preserves the ring invariant. -/
theorem readTx_spec (s : RingState) (req : Nat) (ma : Bool)
    (hinv : ringInv s) :
    ringInv (readTx s req ma).2 ∧
      absQueue s = (readTx s req ma).1 ++ absQueue (readTx s req ma).2 := by
  obtain ⟨hsz, hwp, hrp, hsib, hptr⟩ := hinv
  rcases hb : beginRead s req ma with ⟨regs, s1⟩
  rcases hp : regs.ptr1 with _ | off
  · have hs1 : s1 = s := beginRead_null s req ma regs s1 hb hp
    have hrt : readTx s req ma = ([], s) := by
      simp only [readTx, hb, hp, hs1]
    rw [hrt]
    exact ⟨⟨hsz, hwp, hrp, hsib, hptr⟩, by simp⟩
  · obtain ⟨hne, hreqle, hc3, hc4, hc5, hc6, hc7, hc8⟩ :=
      beginRead_cases s req ma regs s1 hb (by rw [hp]; simp)
    subst hc8
    have hA : (if ma then s.samples_in_buffer else req)
        ≤ s.samples_in_buffer := by
      cases ma with
      | false => simpa using hreqle rfl
      | true => simp
    have hoff : off = s.read_pointer := by
      rw [hp] at hc3
      exact Option.some.inj hc3
    subst hoff
    have hrt : readTx s req ma =
        (regionFetch s.data (some s.read_pointer) regs.len1
            ++ regionFetch s.data regs.ptr2 regs.len2,
          endRead { s with pending_read_size :=
              if ma then s.samples_in_buffer else req }
            (regs.len1 + regs.len2)) := by
      simp only [readTx, hb, hp]
    rw [hrt, hc5]
    have hinv2 : ringInv (endRead { s with pending_read_size :=
        if ma then s.samples_in_buffer else req }
          (if ma then s.samples_in_buffer else req)) := by
      refine ⟨hsz, hwp, Nat.mod_lt _ hsz, ?_, ?_⟩
      · show s.samples_in_buffer
            - (if ma then s.samples_in_buffer else req) ≤ s.size
        omega
      · show s.write_pointer =
          ((s.read_pointer + (if ma then s.samples_in_buffer else req))
              % s.size
            + (s.samples_in_buffer
                - (if ma then s.samples_in_buffer else req))) % s.size
        rw [Nat.mod_add_mod]
        have harr : s.read_pointer
              + (if ma then s.samples_in_buffer else req)
              + (s.samples_in_buffer
                  - (if ma then s.samples_in_buffer else req))
            = s.read_pointer + s.samples_in_buffer := by omega
        rw [harr]
        exact hptr
    by_cases hwrap : (if ma then s.samples_in_buffer else req)
        ≤ s.size - s.read_pointer
    · have hlen1 : regs.len1 = (if ma then s.samples_in_buffer else req) := by
        rw [hc4]
        omega
      have hlen2 : regs.len2 = 0 := by omega
      have hptr2 : regs.ptr2 = none := hc6 hlen2
      rw [hlen1, hlen2, hptr2]
      refine ⟨hinv2, ?_⟩
      show (List.range s.samples_in_buffer).map
          (fun i => s.data ((s.read_pointer + i) % s.size))
        = (regionFetch s.data (some s.read_pointer)
              (if ma then s.samples_in_buffer else req)
            ++ regionFetch s.data none 0)
          ++ (List.range (s.samples_in_buffer
                - (if ma then s.samples_in_buffer else req))).map
              (fun i =>
                s.data (((s.read_pointer
                    + (if ma then s.samples_in_buffer else req)) % s.size
                  + i) % s.size))
      have hsplit : s.samples_in_buffer
          = (if ma then s.samples_in_buffer else req)
            + (s.samples_in_buffer
                - (if ma then s.samples_in_buffer else req)) := by omega
      conv_lhs => rw [hsplit]
      rw [List.range_add, List.map_append, List.map_map]
      congr 1
      · show (List.range (if ma then s.samples_in_buffer else req)).map
            (fun i => s.data ((s.read_pointer + i) % s.size))
          = regionFetch s.data (some s.read_pointer)
              (if ma then s.samples_in_buffer else req)
            ++ regionFetch s.data none 0
        rw [regionFetch, regionFetch, List.append_nil]
        exact range_map_mod s.data s.size s.read_pointer _ (by omega)
      · apply List.map_congr_left
        intro k hk
        rw [List.mem_range] at hk
        simp only [Function.comp]
        rw [Nat.mod_add_mod, Nat.add_assoc]
    · have hlen1 : regs.len1 = s.size - s.read_pointer := by
        rw [hc4]
        omega
      have hlen2 : regs.len2 ≠ 0 := by omega
      have hptr2 : regs.ptr2 = some 0 := hc7 hlen2
      have hlen2v : regs.len2 = (if ma then s.samples_in_buffer else req)
          - (s.size - s.read_pointer) := by omega
      rw [hlen1, hptr2, hlen2v]
      refine ⟨hinv2, ?_⟩
      show (List.range s.samples_in_buffer).map
          (fun i => s.data ((s.read_pointer + i) % s.size))
        = (regionFetch s.data (some s.read_pointer)
              (s.size - s.read_pointer)
            ++ regionFetch s.data (some 0)
                ((if ma then s.samples_in_buffer else req)
                  - (s.size - s.read_pointer)))
          ++ (List.range (s.samples_in_buffer
                - (if ma then s.samples_in_buffer else req))).map
              (fun i =>
                s.data (((s.read_pointer
                    + (if ma then s.samples_in_buffer else req)) % s.size
                  + i) % s.size))
      have hsplit : s.samples_in_buffer
          = (if ma then s.samples_in_buffer else req)
            + (s.samples_in_buffer
                - (if ma then s.samples_in_buffer else req)) := by omega
      conv_lhs => rw [hsplit]
      rw [List.range_add, List.map_append, List.map_map]
      congr 1
      · show (List.range (if ma then s.samples_in_buffer else req)).map
            (fun i => s.data ((s.read_pointer + i) % s.size))
          = regionFetch s.data (some s.read_pointer)
              (s.size - s.read_pointer)
            ++ regionFetch s.data (some 0)
                ((if ma then s.samples_in_buffer else req)
                  - (s.size - s.read_pointer))
        rw [regionFetch, regionFetch]
        exact range_map_mod_wrap s.data s.size s.read_pointer _ hrp
          (by omega) (by omega)
      · apply List.map_congr_left
        intro k hk
        rw [List.mem_range] at hk
        simp only [Function.comp]
        rw [Nat.mod_add_mod, Nat.add_assoc]

/-- Conservation along a schedule: the initial queue plus everything
written equals everything read plus the final queue, and the invariant is
maintained. -/
theorem runOps_conserve (ops : List RingOp) : ∀ s w r sf, ringInv s →
    runOps s ops = some (w, r, sf) →
    ringInv sf ∧ absQueue s ++ w = r ++ absQueue sf := by
  induction ops with
  | nil =>
    intro s w r sf hinv h
    simp only [runOps, Option.some.injEq, Prod.mk.injEq] at h
    obtain ⟨h1, h2, h3⟩ := h
    subst h1
    subst h2
    subst h3
    exact ⟨hinv, by simp⟩
  | cons op rest ih =>
    intro s w r sf hinv h
    cases op with
    | write ws =>
      simp only [runOps] at h
      split at h
      · simp at h
      · rename_i s1 hw
        split at h
        · simp at h
        · rename_i w1 r1 sf1 hrest
          simp only [Option.some.injEq, Prod.mk.injEq] at h
          obtain ⟨hww, hrr, hsf⟩ := h
          subst hww
          subst hrr
          subst hsf
          obtain ⟨hinv1, habs1⟩ := writeTx_spec s s1 ws hinv hw
          obtain ⟨hinvf, habsf⟩ := ih s1 w1 r1 sf1 hinv1 hrest
          refine ⟨hinvf, ?_⟩
          rw [← List.append_assoc, ← habs1]
          exact habsf
    | read req ma =>
      simp only [runOps] at h
      split at h
      · simp at h
      · rename_i w1 r1 sf1 hrest
        simp only [Option.some.injEq, Prod.mk.injEq] at h
        obtain ⟨hww, hrr, hsf⟩ := h
        subst hww
        subst hrr
        subst hsf
        obtain ⟨hinv1, habs1⟩ := readTx_spec s req ma hinv
        obtain ⟨hinvf, habsf⟩ := ih _ w1 r1 sf1 hinv1 hrest
        refine ⟨hinvf, ?_⟩
        rw [habs1, List.append_assoc, List.append_assoc]
        exact congrArg (fun l => (readTx s req ma).1 ++ l) habsf

/-- Claim C1: for every SPSC audio ring and every alternating sequence of
completed write transactions (beginWrite, copy into the returned regions
first region then second, endWrite committing all samples) and read
transactions (beginRead then endRead; an underflow tick consumes nothing),
the concatenation of the samples obtained by the reads is a prefix of the
concatenation of the samples committed by the writes, in order (FIFO). -/
theorem audioRing_fifo (size : Nat) (hsz : 0 < size) (ops : List RingOp)
    (w r : List Int) (h : runTrace size ops = some (w, r)) :
    ∃ t, w = r ++ t := by
  cases hrun : runOps (initRing size) ops with
  | none =>
    rw [runTrace, hrun] at h
    simp at h
  | some triple =>
    obtain ⟨w1, r1, sf⟩ := triple
    rw [runTrace, hrun] at h
    simp only [Option.some.injEq, Prod.mk.injEq] at h
    obtain ⟨hw, hr⟩ := h
    subst hw
    subst hr
    have hinv0 : ringInv (initRing size) := by
      refine ⟨hsz, hsz, hsz, Nat.zero_le _, ?_⟩
      show (0 : Nat) = (0 + 0) % size
      simp
    obtain ⟨hinvf, habs⟩ :=
      runOps_conserve ops (initRing size) w1 r1 sf hinv0 hrun
    refine ⟨absQueue sf, ?_⟩
    have hinit : absQueue (initRing size) = [] := by
      simp [absQueue, initRing]
    rw [hinit] at habs
    simpa using habs

/-- A concrete schedule exercising a wrapping write, an underflow tick and
a maxAvailable read on a ring of size 4. -/
def opsW : List RingOp :=
  [RingOp.write [1, 2, 3], RingOp.read 2 false, RingOp.write [9, 8, 7],
    RingOp.read 5 false, RingOp.read 5 true]

theorem audioRing_fifo_witness :
    0 < 4 ∧
      runTrace 4 opsW = some ([1, 2, 3, 9, 8, 7], [1, 2, 3, 9, 8, 7]) ∧
      ∃ t, [1, 2, 3, 9, 8, 7] = ([1, 2, 3, 9, 8, 7] : List Int) ++ t :=
  ⟨by decide, by decide,
    audioRing_fifo 4 (by decide) opsW [1, 2, 3, 9, 8, 7] [1, 2, 3, 9, 8, 7]
      (by decide)⟩
